import Mathlib

/-!
Shallow embedding of the HUB75 LED-matrix driver core (`ledmatrix.c`) and
verification of the specification's claims about it.

Modelling conventions:
* Machine integers are `Nat` with explicit `% 2^w` where C truncation matters
  (`uint8_t` stores become `% 256`, `uint16_t` stores `% 65536`).
* Byte buffers (the DMA stream, user framebuffers) are functions `Nat → Nat`
  from byte address to byte value; stores are `Function.update`.
* DMA descriptor `buf` pointers become byte offsets into the stream buffer.
* Fallible operations return `Except LedErr _`; the MicroPython exceptions
  `ValueError` (bad arguments) and the initialization check map to
  `.invalidArgument` / `.notInitialized`.  A C-level undefined shift
  (`0x80 >> negative`) is modelled as `.undefined` / `Option.none`.
* The unbounded linear-probing loop of `initialize_buffer` is modelled with
  explicit fuel `2^D - 1` (the number of `seg`-long slots); the theorems below
  prove that this fuel always suffices, so the fuelled function agrees with
  the C loop on every reachable state.
-/

namespace Ledmatrix

/-- DMA_MAX_XFER_SIZE: the DMA length field is 12 bit and transfers are word
aligned, so the per-descriptor limit is `(1 <<< 12) - 4 = 4092`. -/
def DMA_MAX_XFER_SIZE : Nat := 4092

/-- Error kinds surfaced by the driver: `mp_raise_ValueError` on bad arguments,
the explicit `matrix.initialized` check, and a marker for C-level undefined
behaviour (negative shift amount) reached in `get_color_bits_mono_hlsb`. -/
inductive LedErr where
  | notInitialized
  | invalidArgument
  | undefined
deriving DecidableEq

/-- Geometry and configuration fields of the global `matrix` struct
(`ledmatrix.c`, struct at line 81).  `brightness` is the stored value
(user argument plus one). -/
structure Config where
  width : Nat
  height : Nat
  brightness : Nat
  rows : Nat
  color_depth : Nat
  invert : Bool
  column_swap : Bool
  double_buffer : Bool
  single_chn : Bool
deriving DecidableEq

/-- Color used for monochrome / greyscale images (`matrix.mono_color[3]`,
index 0 = red, 1 = green, 2 = blue). -/
structure MonoColor where
  r : Nat
  g : Nat
  b : Nat
deriving DecidableEq

/-- Mutable driver state outside the geometry: the two stream buffers (byte
address to byte value), the target of each ring's last descriptor `next`
pointer (buffer index as `Bool`, descriptor index), the backbuffer index
(`false` = buffer 0, `true` = buffer 1), the mono color, and the
`initialized` flag. -/
structure MatrixState where
  stream0 : Nat → Nat
  stream1 : Nat → Nat
  tailLink0 : Bool × Nat
  tailLink1 : Bool × Nat
  backbuffer : Bool
  monoColor : MonoColor
  initialized : Bool

/-- Bytes of one subimage: two bytes per pixel, `width * rows` pixels
(`subimage_stride` in `initialize_buffer` and the encoder passes). -/
def subimage_stride (width rows : Nat) : Nat := 2 * width * rows

/-- Number of DMA descriptors needed for one subimage:
`((subimage_stride - 1) / DMA_MAX_XFER_SIZE) + 1`. -/
def dma_entries_per_subimage (width rows : Nat) : Nat :=
  (subimage_stride width rows - 1) / DMA_MAX_XFER_SIZE + 1

/-- Total descriptor count `matrix.dma_desc_count = ((1 << color_depth) - 1) *
dma_entries_per_subimage`.  `seg` abbreviates `dma_entries_per_subimage`. -/
def dma_desc_count (D seg : Nat) : Nat := (2 ^ D - 1) * seg

/-- One step of the free-slot search in `initialize_buffer`:
`pos += dma_entries_per_subimage; if (pos >= matrix.dma_desc_count) pos = 0;`. -/
def probe_step (D seg pos : Nat) : Nat :=
  if dma_desc_count D seg ≤ pos + seg then 0 else pos + seg

/-- The `while (buf->dma_desc[pos].buf)` linear-probing loop of
`initialize_buffer`, with explicit fuel.  `f` maps a descriptor position to
the subimage assigned to it so far (`none` models a NULL `buf` pointer).
The callers use fuel `2^D - 1`; `find_free_spec` below shows this always
finds a free slot, so the fuelled model agrees with the unbounded C loop. -/
def find_free_entry (f : Nat → Option Nat) (D seg : Nat) : Nat → Nat → Nat
  | 0, pos => pos
  | fuel + 1, pos =>
    if (f pos).isSome then find_free_entry f D seg fuel (probe_step D seg pos) else pos

/-- Starting position for placement `k` of the level with `n = 2^i` copies:
`pos = (dma_desc_count * k) / n + (dma_desc_count / n / 2)`, rounded down to a
multiple of `dma_entries_per_subimage` (`pos /= e; pos *= e;`). -/
def init_pos (D seg n k : Nat) : Nat :=
  (dma_desc_count D seg * k / n + dma_desc_count D seg / n / 2) / seg * seg

/-- One placement: probe from `pos` for a free slot and store subimage `lvl`
there (`buf->dma_desc[pos].buf = buf->stream_data + subimage_stride * i`). -/
def place_entry (D seg : Nat) (f : Nat → Option Nat) (lvl pos : Nat) : Nat → Option Nat :=
  Function.update f (find_free_entry f D seg (2 ^ D - 1) pos) (some lvl)

/-- The inner `for (k = 0; k < n; k++)` loop of `initialize_buffer` for level
`lvl`, after `k` iterations. -/
def place_level (D seg lvl : Nat) (f : Nat → Option Nat) : Nat → Nat → Option Nat
  | 0 => f
  | k + 1 => place_entry D seg (place_level D seg lvl f k) lvl (init_pos D seg (2 ^ lvl) k)

/-- The outer `for (i = 0; i < matrix.color_depth - 1; i++)` loop after `i`
levels, starting from the zeroed descriptor array (`memset(dma_desc, 0, ...)`:
every `buf` is NULL). -/
def place_levels (D seg : Nat) : Nat → Nat → Option Nat
  | 0 => fun _ => none
  | i + 1 => place_level D seg i (place_levels D seg i) (2 ^ i)

/-- Subimage streamed by slot `s` (descriptor positions `s*seg ..< (s+1)*seg`)
after `initialize_buffer`'s second pass: the subimage placed by the first
pass, or `color_depth - 1` for every descriptor whose `buf` is still NULL. -/
def slot_subimage (D seg s : Nat) : Nat :=
  (place_levels D seg (D - 1) (s * seg)).getD (D - 1)

/-- DMA descriptor (`lldesc_t`): `buf` is modelled as a byte offset into the
stream buffer; `length`, `size` and `owner` as in the source.  The `next`
links are the separate `desc_next` function below. -/
structure LLDesc where
  bufOff : Nat
  length : Nat
  size : Nat
  owner : Nat
deriving DecidableEq

/-- The `while (remaining)` loop of `initialize_buffer`'s second pass: starting
at offset `base`, emit descriptors of `min remaining DMA_MAX_XFER_SIZE` bytes
(`length = size = block`, `owner = 1`, `ptr += block`). -/
def fill_slot (base : Nat) : Nat → List LLDesc
  | 0 => []
  | r + 1 =>
    ⟨base, min (r + 1) DMA_MAX_XFER_SIZE, min (r + 1) DMA_MAX_XFER_SIZE, 1⟩ ::
      fill_slot (base + min (r + 1) DMA_MAX_XFER_SIZE) (r + 1 - min (r + 1) DMA_MAX_XFER_SIZE)
termination_by r => r
decreasing_by simp only [DMA_MAX_XFER_SIZE] at *; omega

/-- Descriptor list produced by `initialize_buffer`: the second pass walks the
descriptor array slot by slot (after filling one slot of
`dma_entries_per_subimage` descriptors the loop index has advanced past it),
so the array is the concatenation over slots `s < 2^D - 1` of the `fill_slot`
chunks of subimage `slot_subimage D seg s`. -/
def initialize_buffer_descs (D seg width rows : Nat) : List LLDesc :=
  (List.range (2 ^ D - 1)).flatMap fun s =>
    fill_slot (subimage_stride width rows * slot_subimage D seg s) (subimage_stride width rows)

/-- Descriptor links set by `initialize_buffer`'s final loops:
`dma_desc[i].qe.stqe_next = &dma_desc[i+1]` for `i < N - 1` and
`dma_desc[N-1].qe.stqe_next = &dma_desc [0]`. -/
def desc_next (N i : Nat) : Nat :=
  if i = N - 1 then 0 else i + 1

/-- Control byte computed by `create_control_pattern` for one `(row, pixel)`
cell.  `display_row = row - 1` underflows as `uint8_t` (`(row + 255) % 256`);
the row address starts at bit `BITSTREAM_CTRL_ROW_START_BIT = 2`; OE is bit 0,
LAT is bit 1; `~ctrl` on a `uint8_t` below 256 is `ctrl ^^^ 255`. -/
def create_ctrl_byte (width brightness : Nat) (invert : Bool) (row pixel : Nat) : Nat :=
  let display_row := (row + 255) % 256
  let c0 := (display_row <<< 2) % 256
  let c1 := if pixel < 2 ∨ brightness < pixel then c0 ||| 1 else c0
  let c2 := if pixel = width - 2 then c1 ||| 2 else c1
  if invert then c2 ^^^ 255 else c2

/-- Byte address of the control byte of cell `(lvl, row, pixel)`:
`stream + subimage_stride*lvl + row_stride*row + 2*pixel + BITSTREAM_CTRL_BYTE`
with `row_stride = 2*width` and `BITSTREAM_CTRL_BYTE = 1`. -/
def ctrl_addr (width rows lvl row pixel : Nat) : Nat :=
  subimage_stride width rows * lvl + 2 * width * row + 2 * pixel + 1

/-- Byte address of the color byte of cell `(lvl, row, pixel)`
(`BITSTREAM_COLOR_BYTE = 0`). -/
def color_addr (width rows lvl row pixel : Nat) : Nat :=
  subimage_stride width rows * lvl + 2 * width * row + 2 * pixel

/-- Iteration order of the encoder passes: `lvl` outermost, then `row`, then
`pixel` (the three nested `for` loops shared by `create_control_pattern` and
`update_framebuffer`). -/
def encoder_triples (depth rows width : Nat) : List (Nat × Nat × Nat) :=
  (List.range depth).flatMap fun lvl =>
    (List.range rows).flatMap fun row =>
      (List.range width).map fun pixel => (lvl, row, pixel)

/-- The control-byte pass `create_control_pattern`: for every
`(lvl, row, pixel)` store `create_ctrl_byte` at the cell's control byte. -/
def create_control_pattern (cfg : Config) (stream : Nat → Nat) : Nat → Nat :=
  (encoder_triples cfg.color_depth cfg.rows cfg.width).foldl
    (fun st t =>
      Function.update st (ctrl_addr cfg.width cfg.rows t.1 t.2.1 t.2.2)
        (create_ctrl_byte cfg.width cfg.brightness cfg.invert t.2.1 t.2.2))
    stream

/-- RGB565 bit extraction (`get_rgb565_bits`): expand to 8-bit channels
(`r = (color >> 8) & 0xf8`, `g = (color >> 3) & 0xfc`, `b = color << 3` as
`uint8_t`) and pack bit `7 - bit` of each channel as `r | g<<1 | b<<2`. -/
def get_rgb565_bits (color bit : Nat) : Nat :=
  let r := color >>> 8 &&& 0xf8
  let g := color >>> 3 &&& 0xfc
  let b := (color <<< 3) % 256
  (r >>> (7 - bit) &&& 1) ||| ((g >>> (7 - bit) &&& 1) <<< 1) ||| ((b >>> (7 - bit) &&& 1) <<< 2)

/-- Tint bits for monochrome pixels (`get_mono_color_bits`). -/
def get_mono_color_bits (mc : MonoColor) (bit : Nat) : Nat :=
  (mc.r >>> (7 - bit) &&& 1) ||| ((mc.g >>> (7 - bit) &&& 1) <<< 1) |||
    ((mc.b >>> (7 - bit) &&& 1) <<< 2)

/-- RGB565 decoder (`get_color_bits_rgb`): the framebuffer is an array of
16-bit little-endian pixels, read here as two bytes. -/
def get_color_bits_rgb (width : Nat) (x y bit : Nat) (data : Nat → Nat) : Option Nat :=
  some (get_rgb565_bits (data (2 * (y * width + x)) + 256 * data (2 * (y * width + x) + 1)) bit)

/-- GS8 decoder (`get_color_bits_gs8`): luminance byte scaled by the mono
color per channel (`(v * mono_color[c]) / 255` as `uint8_t`), then the same
bit extraction as RGB565. -/
def get_color_bits_gs8 (width : Nat) (mc : MonoColor) (x y bit : Nat) (data : Nat → Nat) :
    Option Nat :=
  let v := data (y * width + x)
  let r := v * mc.r / 255
  let g := v * mc.g / 255
  let b := v * mc.b / 255
  some ((r >>> (7 - bit) &&& 1) ||| ((g >>> (7 - bit) &&& 1) <<< 1) |||
    ((b >>> (7 - bit) &&& 1) <<< 2))

/-- MONO_HLSB decoder (`get_color_bits_mono_hlsb`): tests
`data[(x >> 3) + ((y * width) >> 3)] & (0x80 >> (1 - (x & 7)))`.  The C shift
amount `1 - (x & 7)` is negative whenever `(x & 7) ≥ 2`; a negative shift is
undefined behaviour in C, modelled as `none`.  Inside the guard the `Nat`
subtraction `1 - (x &&& 7)` equals the C value exactly. -/
def get_color_bits_mono_hlsb (width : Nat) (mc : MonoColor) (x y bit : Nat) (data : Nat → Nat) :
    Option Nat :=
  if x &&& 7 ≤ 1 then
    some
      (if data (x >>> 3 + (y * width) >>> 3) &&& (0x80 >>> (1 - (x &&& 7))) ≠ 0 then
        get_mono_color_bits mc bit
      else 0)
  else none

/-- Decoder behaviour asserted by claim C6, following the spec's words: the
bit for `(x, y)` sits at byte `(x >> 3) + y * (width / 8)` under the MSB-first
mask `0x80 >> ((x XOR 1) & 7)`. -/
def mono_hlsb_claimed (width : Nat) (mc : MonoColor) (x y bit : Nat) (data : Nat → Nat) : Nat :=
  if data (x >>> 3 + y * (width / 8)) &&& (0x80 >>> ((x ^^^ 1) &&& 7)) ≠ 0 then
    get_mono_color_bits mc bit
  else 0

/-- The color-byte pass `update_framebuffer`: for every `(lvl, row, pixel)`
compute `source_px` (column swap), `bit = color_depth - lvl - 1`, sample the
decoder (twice when dual channel, lower half shifted by 3), invert, and store
at the cell's color byte.  A `none` from the decoder (C undefined behaviour)
aborts the pass. -/
def update_framebuffer (cfg : Config)
    (decoder : Nat → Nat → Nat → (Nat → Nat) → Option Nat)
    (data : Nat → Nat) (stream : Nat → Nat) : Option (Nat → Nat) :=
  (encoder_triples cfg.color_depth cfg.rows cfg.width).foldlM
    (fun st t => do
      let source_px := if cfg.column_swap then t.2.2 ^^^ 1 else t.2.2
      let bit := cfg.color_depth - t.1 - 1
      let c0 ← decoder source_px t.2.1 bit data
      let c1 ←
        if cfg.single_chn then some c0
        else do
          let cl ← decoder source_px (t.2.1 + cfg.rows) bit data
          some (c0 ||| cl <<< 3)
      let c2 := if cfg.invert then c1 ^^^ 255 else c1
      some (Function.update st (color_addr cfg.width cfg.rows t.1 t.2.1 t.2.2) c2))
    stream

/-- Keyword arguments of `ledmatrix_init` (pins as machine integers; the
`brightness` default is the sentinel `-1`, meaning "not passed"). -/
structure InitArgs where
  io_colors : List Int
  io_rows : List Int
  io_oe : Int
  io_lat : Int
  io_clk : Int
  width : Nat
  color_depth : Nat
  clock_speed_khz : Int
  invert : Bool
  double_buffer : Bool
  column_swap : Bool
  single_channel : Bool
  brightness : Int

/-- Validation and configuration part of `ledmatrix_init` (lines 481-647).
Checks in source order: odd width; explicit brightness (only when the
argument is strictly positive) within `[0, width - 2]`, stored as
`argument + 1`, else default `width - 1`; zero color depth; color pin count
(the read loop stops after 6 items, so the effective count is
`min length 6`) equal to 3 (single channel) or 6 (dual); more than 6 row
pins; `rows = 1 << (number of row pins)` and the derived height.  Buffer
allocation and the external driver install are outside this model.
`uint16_t` / `uint8_t` stores keep their `% 2^w`; the default-brightness
store `width - 1` is faithful for `width ≥ 1` (theorems assume it). -/
def ledmatrix_init (a : InitArgs) : Except LedErr Config :=
  let width := a.width % 65536
  let depth := a.color_depth % 256
  if width % 2 = 1 then .error .invalidArgument
  else if 0 < a.brightness ∧ width - 1 ≤ a.brightness.toNat % 65536 then .error .invalidArgument
  else if depth = 0 then .error .invalidArgument
  else if (a.single_channel = true ∧ min a.io_colors.length 6 ≠ 3) ∨
      (a.single_channel = false ∧ min a.io_colors.length 6 ≠ 6) then
    .error .invalidArgument
  else if 6 < a.io_rows.length then .error .invalidArgument
  else
    let rows := 2 ^ a.io_rows.length
    .ok
      { width := width
        height := if a.single_channel then rows else 2 * rows
        brightness :=
          if 0 < a.brightness then a.brightness.toNat % 65536 + 1 else width - 1
        rows := rows
        color_depth := depth
        invert := a.invert
        column_swap := a.column_swap
        double_buffer := a.double_buffer
        single_chn := a.single_channel }

/-- Truth of `Except.error`. -/
def isErr {ε α : Type} : Except ε α → Bool
  | .error _ => true
  | .ok _ => false

/-- The `ledmatrix_set_brightness` operation: requires initialization, raises
`ValueError` when `newb < 0 || newb >= matrix.width - 1` (exact in `Int`),
stores `brightness = newb + 1` and re-runs `create_control_pattern` on buffer
0 and, when double buffered, buffer 1. -/
def ledmatrix_set_brightness (cfg : Config) (st : MatrixState) (v : Int) :
    Except LedErr (Config × MatrixState) :=
  if st.initialized = false then .error .notInitialized
  else if v < 0 ∨ (cfg.width : Int) - 1 ≤ v then .error .invalidArgument
  else
    let cfg2 : Config := { cfg with brightness := v.toNat + 1 }
    .ok
      (cfg2,
        { st with
          stream0 := create_control_pattern cfg2 st.stream0
          stream1 :=
            if cfg.double_buffer then create_control_pattern cfg2 st.stream1 else st.stream1 })

/-- Stream bytes of the current backbuffer (`matrix.buffer[matrix.backbuffer]`). -/
def backStream (st : MatrixState) : Nat → Nat :=
  if st.backbuffer then st.stream1 else st.stream0

/-- Store a new stream for the current backbuffer. -/
def setBackStream (st : MatrixState) (s : Nat → Nat) : MatrixState :=
  if st.backbuffer then { st with stream1 := s } else { st with stream0 := s }

/-- Double-buffer hand-off at the end of `ledmatrix_show`: point the last
descriptor of both rings at `buffer[backbuffer].dma_desc[0]` and toggle
`backbuffer ^= 1`.  No-op when not double buffered. -/
def handoff (cfg : Config) (st : MatrixState) : MatrixState :=
  if cfg.double_buffer then
    { st with
      tailLink0 := (st.backbuffer, 0)
      tailLink1 := (st.backbuffer, 0)
      backbuffer := !st.backbuffer }
  else st

/-- The `switch (mode)` of `ledmatrix_show`: size check and
`update_framebuffer` call per mode; `.ok none` when the mode matches no case
(the `switch` falls through without touching the stream). -/
def show_encode (cfg : Config) (mc : MonoColor) (fbLen : Nat) (fb : Nat → Nat) (mode : Int)
    (stream : Nat → Nat) : Except LedErr (Option (Nat → Nat)) :=
  if mode = 0 then
    if fbLen ≠ cfg.width * cfg.height * 2 then .error .invalidArgument
    else
      match update_framebuffer cfg (get_color_bits_rgb cfg.width) fb stream with
      | some s => .ok (some s)
      | none => .error .undefined
  else if mode = 1 then
    if fbLen ≠ cfg.width * cfg.height then .error .invalidArgument
    else
      match update_framebuffer cfg (get_color_bits_gs8 cfg.width mc) fb stream with
      | some s => .ok (some s)
      | none => .error .undefined
  else if mode = 2 then
    if fbLen ≠ ((cfg.width - 1) / 8 + 1) * cfg.height then .error .invalidArgument
    else
      match update_framebuffer cfg (get_color_bits_mono_hlsb cfg.width mc) fb stream with
      | some s => .ok (some s)
      | none => .error .undefined
  else .ok none

/-- Mono-color update at the start of `ledmatrix_show`:
`if (color >= 0) { mono_color[0] = (color >> 16) & 0xff; ... }`. -/
def updMonoColor (st : MatrixState) (monoColorArg : Int) : MatrixState :=
  if 0 ≤ monoColorArg then
    { st with
      monoColor :=
        ⟨monoColorArg.toNat >>> 16 &&& 0xff, monoColorArg.toNat >>> 8 &&& 0xff,
          monoColorArg.toNat &&& 0xff⟩ }
  else st

/-- Everything `ledmatrix_show` does before the hand-off: the `initialized`
check, the optional mono-color update, and the mode switch writing into the
backbuffer's stream. -/
def show_write (cfg : Config) (st : MatrixState) (fbLen : Nat) (fb : Nat → Nat)
    (mode monoColorArg : Int) : Except LedErr MatrixState :=
  if st.initialized = false then .error .notInitialized
  else
    match show_encode cfg (updMonoColor st monoColorArg).monoColor fbLen fb mode
        (backStream (updMonoColor st monoColorArg)) with
    | .error e => .error e
    | .ok none => .ok (updMonoColor st monoColorArg)
    | .ok (some s) => .ok (setBackStream (updMonoColor st monoColorArg) s)

/-- The `ledmatrix_show` operation: `show_write` followed, on success, by the
double-buffer hand-off. -/
def ledmatrix_show (cfg : Config) (st : MatrixState) (fbLen : Nat) (fb : Nat → Nat)
    (mode monoColorArg : Int) : Except LedErr MatrixState :=
  (show_write cfg st fbLen fb mode monoColorArg).map (handoff cfg)

/-- Slots of the first pass of `initialize_buffer` that already carry a
subimage pointer, in slot units (`NS` slots of `seg` descriptors each). -/
def occ (seg NS : Nat) (f : Nat → Option Nat) : Finset Nat :=
  (Finset.range NS).filter fun s => (f (s * seg)).isSome = true

/-- Slots of the first pass that carry subimage `l`, in slot units. -/
def cnt (seg NS : Nat) (f : Nat → Option Nat) (l : Nat) : Finset Nat :=
  (Finset.range NS).filter fun s => f (s * seg) = some l

/-- Init arguments with duplicated pin indices (every color pin is GPIO 1)
and default (`-1`) brightness; used to test claim C9. -/
def dup_args : InitArgs :=
  { io_colors := [1, 1, 1, 1, 1, 1], io_rows := [2], io_oe := 3, io_lat := 4, io_clk := 5,
    width := 8, color_depth := 4, clock_speed_khz := 2500, invert := false,
    double_buffer := false, column_swap := true, single_channel := false, brightness := -1 }

/-- Init arguments with an odd width, used as a concrete instance of the
amended claim C9. -/
def nine_args : InitArgs :=
  { io_colors := [0, 1, 2, 3, 4, 5], io_rows := [6], io_oe := 7, io_lat := 8, io_clk := 9,
    width := 9, color_depth := 4, clock_speed_khz := 2500, invert := false,
    double_buffer := false, column_swap := true, single_channel := false, brightness := -1 }

/-- Init arguments passing `brightness = 0` explicitly (claim C7). -/
def c7_args : InitArgs :=
  { io_colors := [0, 1, 2, 3, 4, 5], io_rows := [6], io_oe := 7, io_lat := 8, io_clk := 9,
    width := 8, color_depth := 4, clock_speed_khz := 2500, invert := false,
    double_buffer := false, column_swap := true, single_channel := false, brightness := 0 }

/-- Tiny double-buffered geometry for concrete state tests: width 2, one row,
single channel, one bitplane, no swap, no inversion. -/
def cfg2x1 : Config :=
  { width := 2, height := 1, brightness := 1, rows := 1, color_depth := 1, invert := false,
    column_swap := false, double_buffer := true, single_chn := true }

/-- All-zero byte function. -/
def zeroStream : Nat → Nat := fun _ => 0

/-- Initialized double-buffered state right after `init` (backbuffer index 1),
with both streams blank. -/
def st2x1 : MatrixState :=
  { stream0 := zeroStream, stream1 := zeroStream, tailLink0 := (false, 0),
    tailLink1 := (true, 0), backbuffer := true, monoColor := ⟨255, 255, 255⟩,
    initialized := true }

/-- First test frame: all-black RGB565 framebuffer bytes. -/
def fbA : Nat → Nat := fun _ => 0

/-- Second test frame: all-white RGB565 framebuffer bytes. -/
def fbB : Nat → Nat := fun _ => 255

/-- State after `show(fbA)` on `st2x1`. -/
def st1c : MatrixState :=
  match ledmatrix_show cfg2x1 st2x1 4 fbA 0 (-1) with
  | .ok s => s
  | .error _ => st2x1

/-- State after `show(fbA)` then `show(fbB)`. -/
def st2c : MatrixState :=
  match ledmatrix_show cfg2x1 st1c 4 fbB 0 (-1) with
  | .ok s => s
  | .error _ => st2x1

theorem updMonoColor_backbuffer (st : MatrixState) (mca : Int) :
    (updMonoColor st mca).backbuffer = st.backbuffer := by
  unfold updMonoColor; split <;> rfl

theorem updMonoColor_tailLink0 (st : MatrixState) (mca : Int) :
    (updMonoColor st mca).tailLink0 = st.tailLink0 := by
  unfold updMonoColor; split <;> rfl

theorem updMonoColor_tailLink1 (st : MatrixState) (mca : Int) :
    (updMonoColor st mca).tailLink1 = st.tailLink1 := by
  unfold updMonoColor; split <;> rfl

theorem updMonoColor_stream0 (st : MatrixState) (mca : Int) :
    (updMonoColor st mca).stream0 = st.stream0 := by
  unfold updMonoColor; split <;> rfl

theorem updMonoColor_stream1 (st : MatrixState) (mca : Int) :
    (updMonoColor st mca).stream1 = st.stream1 := by
  unfold updMonoColor; split <;> rfl

theorem setBackStream_backbuffer (st : MatrixState) (s : Nat → Nat) :
    (setBackStream st s).backbuffer = st.backbuffer := by
  unfold setBackStream; split <;> rfl

theorem setBackStream_tailLink0 (st : MatrixState) (s : Nat → Nat) :
    (setBackStream st s).tailLink0 = st.tailLink0 := by
  unfold setBackStream; split <;> rfl

theorem setBackStream_tailLink1 (st : MatrixState) (s : Nat → Nat) :
    (setBackStream st s).tailLink1 = st.tailLink1 := by
  unfold setBackStream; split <;> rfl

theorem backStream_updMonoColor (st : MatrixState) (mca : Int) :
    backStream (updMonoColor st mca) = backStream st := by
  unfold updMonoColor backStream; split <;> rfl

theorem backStream_setBackStream (st : MatrixState) (s : Nat → Nat) :
    backStream (setBackStream st s) = s := by
  unfold backStream setBackStream
  rcases hb : st.backbuffer <;> simp [hb]

theorem setBackStream_stream0_of_true (st : MatrixState) (s : Nat → Nat)
    (h : st.backbuffer = true) : (setBackStream st s).stream0 = st.stream0 := by
  unfold setBackStream; rw [h]; rfl

theorem setBackStream_stream1_of_false (st : MatrixState) (s : Nat → Nat)
    (h : st.backbuffer = false) : (setBackStream st s).stream1 = st.stream1 := by
  unfold setBackStream; rw [h]; rfl

theorem show_write_ok_fields (cfg : Config) (st : MatrixState) (fbLen : Nat) (fb : Nat → Nat)
    (mode monoColorArg : Int) (st2 : MatrixState)
    (h : show_write cfg st fbLen fb mode monoColorArg = .ok st2) :
    st2.backbuffer = st.backbuffer ∧ st2.tailLink0 = st.tailLink0 ∧
      st2.tailLink1 = st.tailLink1 := by
  unfold show_write at h
  split at h
  · exact absurd h (by simp)
  · split at h
    · exact absurd h (by simp)
    · injection h with h
      subst h
      exact ⟨updMonoColor_backbuffer .., updMonoColor_tailLink0 .., updMonoColor_tailLink1 ..⟩
    · injection h with h
      subst h
      refine ⟨?_, ?_, ?_⟩
      · rw [setBackStream_backbuffer, updMonoColor_backbuffer]
      · rw [setBackStream_tailLink0, updMonoColor_tailLink0]
      · rw [setBackStream_tailLink1, updMonoColor_tailLink1]

theorem show_encode_rgb (cfg : Config) (mc : MonoColor) (fbLen : Nat) (fb : Nat → Nat)
    (stream : Nat → Nat) (res : Option (Nat → Nat))
    (h : show_encode cfg mc fbLen fb 0 stream = .ok res) :
    ∃ s, res = some s ∧
      update_framebuffer cfg (get_color_bits_rgb cfg.width) fb stream = some s := by
  unfold show_encode at h
  rw [if_pos rfl] at h
  split at h
  · exact absurd h (by simp)
  · split at h
    next s heq =>
      injection h with h
      exact ⟨s, h.symm, heq⟩
    next heq => exact absurd h (by simp)

/-- C4: in double-buffer mode, after every successful `show` both rings' last
descriptor `next` links point at the first descriptor of the buffer `show`
just wrote (the old backbuffer, which becomes the new front), and the
backbuffer index is toggled; hence after each call both tail links point at
the current front buffer's first descriptor, regardless of the starting
backbuffer. -/
theorem show_handoff_links (cfg : Config) (st : MatrixState) (fbLen : Nat) (fb : Nat → Nat)
    (mode monoColorArg : Int) (st' : MatrixState) (hdb : cfg.double_buffer = true)
    (h : ledmatrix_show cfg st fbLen fb mode monoColorArg = .ok st') :
    st'.tailLink0 = (st.backbuffer, 0) ∧ st'.tailLink1 = (st.backbuffer, 0) ∧
      st'.backbuffer = !st.backbuffer ∧ st'.tailLink0 = (!st'.backbuffer, 0) := by
  unfold ledmatrix_show at h
  cases hw : show_write cfg st fbLen fb mode monoColorArg with
  | error e => rw [hw] at h; exact absurd h (by simp [Except.map])
  | ok st2 =>
    rw [hw] at h
    simp only [Except.map] at h
    injection h with h
    obtain ⟨hb, -, -⟩ := show_write_ok_fields _ _ _ _ _ _ _ hw
    subst h
    simp [handoff, hdb, hb]

/-- Witness for C4 at a concrete double-buffered state. -/
theorem show_handoff_links_witness :
    cfg2x1.double_buffer = true ∧ ledmatrix_show cfg2x1 st2x1 4 fbA 0 (-1) = .ok st1c ∧
      (st1c.tailLink0 = (st2x1.backbuffer, 0) ∧ st1c.tailLink1 = (st2x1.backbuffer, 0) ∧
        st1c.backbuffer = !st2x1.backbuffer ∧ st1c.tailLink0 = (!st1c.backbuffer, 0)) :=
  ⟨rfl, rfl, show_handoff_links cfg2x1 st2x1 4 fbA 0 (-1) st1c rfl rfl⟩

/-- C10: while initialized, a `show` with a mode outside `{0, 1, 2}` raises no
error and writes no stream byte of any buffer (the mode `switch` has no
default case), yet in double-buffer mode it still rewrites both rings' last
`next` links to the first descriptor of the untouched backbuffer and toggles
the backbuffer index. -/
theorem show_unknown_mode (cfg : Config) (st : MatrixState) (fbLen : Nat) (fb : Nat → Nat)
    (mode monoColorArg : Int) (hinit : st.initialized = true) (h0 : mode ≠ 0) (h1 : mode ≠ 1)
    (h2 : mode ≠ 2) (hdb : cfg.double_buffer = true) :
    ledmatrix_show cfg st fbLen fb mode monoColorArg =
      .ok
        { st with
          monoColor := (updMonoColor st monoColorArg).monoColor
          tailLink0 := (st.backbuffer, 0)
          tailLink1 := (st.backbuffer, 0)
          backbuffer := !st.backbuffer } := by
  have hsw : show_write cfg st fbLen fb mode monoColorArg = .ok (updMonoColor st monoColorArg) := by
    unfold show_write show_encode
    rw [hinit]
    simp [h0, h1, h2]
  unfold ledmatrix_show
  rw [hsw]
  simp only [Except.map]
  unfold handoff
  rw [hdb]
  simp only [if_pos]
  congr 1
  unfold updMonoColor
  split <;> rfl

/-- Witness for C10: mode 3 on the concrete double-buffered state. -/
theorem show_unknown_mode_witness :
    st2x1.initialized = true ∧ (3 : Int) ≠ 0 ∧ (3 : Int) ≠ 1 ∧ (3 : Int) ≠ 2 ∧
      cfg2x1.double_buffer = true ∧
      ledmatrix_show cfg2x1 st2x1 4 fbA 3 (-1) =
        .ok
          { st2x1 with
            monoColor := (updMonoColor st2x1 (-1)).monoColor
            tailLink0 := (st2x1.backbuffer, 0)
            tailLink1 := (st2x1.backbuffer, 0)
            backbuffer := !st2x1.backbuffer } :=
  ⟨rfl, by decide, by decide, by decide, rfl,
    show_unknown_mode cfg2x1 st2x1 4 fbA 3 (-1) rfl (by decide) (by decide) (by decide) rfl⟩

theorem show_write_rgb (cfg : Config) (st : MatrixState) (fbLen : Nat) (fb : Nat → Nat)
    (monoColorArg : Int) (st2 : MatrixState)
    (h : show_write cfg st fbLen fb 0 monoColorArg = .ok st2) :
    update_framebuffer cfg (get_color_bits_rgb cfg.width) fb (backStream st) =
        some (backStream st2) ∧
      (st.backbuffer = true → st2.stream0 = st.stream0) ∧
      (st.backbuffer = false → st2.stream1 = st.stream1) := by
  unfold show_write at h
  split at h
  · exact absurd h (by simp)
  · split at h
    next e heq => exact absurd h (by simp)
    next heq =>
      obtain ⟨s, hs, -⟩ := show_encode_rgb _ _ _ _ _ _ heq
      exact absurd hs (by simp)
    next s heq =>
      obtain ⟨s', hs, henc⟩ := show_encode_rgb _ _ _ _ _ _ heq
      injection hs with hs
      subst hs
      rw [backStream_updMonoColor] at henc
      injection h with h
      subst h
      refine ⟨?_, ?_, ?_⟩
      · rw [backStream_setBackStream]; exact henc
      · intro hb
        rw [setBackStream_stream0_of_true _ _ (by rw [updMonoColor_backbuffer]; exact hb),
          updMonoColor_stream0]
      · intro hb
        rw [setBackStream_stream1_of_false _ _ (by rw [updMonoColor_backbuffer]; exact hb),
          updMonoColor_stream1]

theorem show_rgb_ok (cfg : Config) (st : MatrixState) (fbLen : Nat) (fb : Nat → Nat)
    (monoColorArg : Int) (st' : MatrixState) (hdb : cfg.double_buffer = true)
    (h : ledmatrix_show cfg st fbLen fb 0 monoColorArg = .ok st') :
    st'.backbuffer = !st.backbuffer ∧ st'.tailLink0 = (st.backbuffer, 0) ∧
      st'.tailLink1 = (st.backbuffer, 0) ∧
      (st.backbuffer = true → st'.stream0 = st.stream0 ∧
        update_framebuffer cfg (get_color_bits_rgb cfg.width) fb st.stream1 =
          some st'.stream1) ∧
      (st.backbuffer = false → st'.stream1 = st.stream1 ∧
        update_framebuffer cfg (get_color_bits_rgb cfg.width) fb st.stream0 =
          some st'.stream0) := by
  unfold ledmatrix_show at h
  cases hw : show_write cfg st fbLen fb 0 monoColorArg with
  | error e => rw [hw] at h; exact absurd h (by simp [Except.map])
  | ok st2 =>
    rw [hw] at h
    simp only [Except.map] at h
    injection h with h
    obtain ⟨hb, -, -⟩ := show_write_ok_fields _ _ _ _ _ _ _ hw
    obtain ⟨henc, hs0, hs1⟩ := show_write_rgb _ _ _ _ _ _ hw
    subst h
    refine ⟨by simp [handoff, hdb, hb], by simp [handoff, hdb, hb], by simp [handoff, hdb, hb],
      ?_, ?_⟩
    · intro hbt
      refine ⟨by simp [handoff, hdb]; rw [hs0 hbt], ?_⟩
      have hfront : backStream st = st.stream1 := by simp [backStream, hbt]
      rw [hfront] at henc
      have h2 : backStream st2 = st2.stream1 := by simp [backStream, hb, hbt]
      rw [h2] at henc
      simpa [handoff, hdb] using henc
    · intro hbf
      refine ⟨by simp [handoff, hdb]; rw [hs1 hbf], ?_⟩
      have hfront : backStream st = st.stream0 := by simp [backStream, hbf]
      rw [hfront] at henc
      have h2 : backStream st2 = st2.stream0 := by simp [backStream, hb, hbf]
      rw [h2] at henc
      simpa [handoff, hdb] using henc

/-- C5 holds only with the two buffers exchanged: after `show(fbA)` then
`show(fbB)` on the concrete double-buffered state, both tail links point at
buffer 0 — the buffer holding fbB's encoding (stream byte 7 at address 0) —
not at the buffer holding fbA's encoding (buffer 1, stream byte 0), and the
backbuffer index designates buffer 1, the one holding fbA's encoding. -/
theorem show_sequence_links_cex :
    st2c.tailLink0 = (false, 0) ∧ st2c.tailLink1 = (false, 0) ∧ st2c.backbuffer = true ∧
      st2c.stream1 0 = 0 ∧ st2c.stream0 0 = 7 ∧ (0 : Nat) ≠ 7 :=
  ⟨rfl, rfl, rfl, rfl, rfl, by decide⟩

/-- C5 (amended): with double buffering and the backbuffer starting at 1,
`show(fbA)` then `show(fbB)` leaves both rings' last `next` links equal to
the first descriptor of buffer 0 — the buffer holding fbB's encoding, the
new front — and leaves the backbuffer index designating buffer 1, the buffer
holding fbA's encoding. -/
theorem show_sequence_links_amended (cfg : Config) (st st1 st2 : MatrixState)
    (fA fB : Nat → Nat) (lenA lenB : Nat) (mcaA mcaB : Int)
    (hdb : cfg.double_buffer = true) (hbb : st.backbuffer = true)
    (h1 : ledmatrix_show cfg st lenA fA 0 mcaA = .ok st1)
    (h2 : ledmatrix_show cfg st1 lenB fB 0 mcaB = .ok st2) :
    st2.tailLink0 = (false, 0) ∧ st2.tailLink1 = (false, 0) ∧ st2.backbuffer = true ∧
      st2.stream1 = st1.stream1 ∧
      update_framebuffer cfg (get_color_bits_rgb cfg.width) fA st.stream1 = some st1.stream1 ∧
      update_framebuffer cfg (get_color_bits_rgb cfg.width) fB st1.stream0 =
        some st2.stream0 := by
  obtain ⟨hb1, -, -, hT1, -⟩ := show_rgb_ok cfg st lenA fA mcaA st1 hdb h1
  have hb1' : st1.backbuffer = false := by rw [hb1, hbb]; rfl
  obtain ⟨hs0A, hencA⟩ := hT1 hbb
  obtain ⟨hb2, hl0, hl1, -, hF2⟩ := show_rgb_ok cfg st1 lenB fB mcaB st2 hdb h2
  obtain ⟨hs1B, hencB⟩ := hF2 hb1'
  rw [hb1'] at hl0 hl1
  rw [hb1'] at hb2
  exact ⟨hl0, hl1, by rw [hb2]; rfl, hs1B, hencA, hencB⟩

/-- Witness for the amended C5 on the concrete state. -/
theorem show_sequence_links_amended_witness :
    cfg2x1.double_buffer = true ∧ st2x1.backbuffer = true ∧
      ledmatrix_show cfg2x1 st2x1 4 fbA 0 (-1) = .ok st1c ∧
      ledmatrix_show cfg2x1 st1c 4 fbB 0 (-1) = .ok st2c ∧
      (st2c.tailLink0 = (false, 0) ∧ st2c.tailLink1 = (false, 0) ∧ st2c.backbuffer = true ∧
        st2c.stream1 = st1c.stream1 ∧
        update_framebuffer cfg2x1 (get_color_bits_rgb cfg2x1.width) fbA st2x1.stream1 =
          some st1c.stream1 ∧
        update_framebuffer cfg2x1 (get_color_bits_rgb cfg2x1.width) fbB st1c.stream0 =
          some st2c.stream0) :=
  ⟨rfl, rfl, rfl, rfl,
    show_sequence_links_amended cfg2x1 st2x1 st1c st2c fbA fbB 4 4 (-1) (-1) rfl rfl rfl rfl⟩

/-- C7: the code stores `width - 1` (maximum brightness) when `brightness = 0`
is passed explicitly, because the explicit-value branch requires the argument
to be strictly positive; the claim (and the source's own parameter
documentation, which says 0 means off) requires the stored value `0 + 1`. -/
theorem init_brightness_zero_eval :
    c7_args.brightness = 0 ∧
      ledmatrix_init c7_args = .ok ⟨8, 4, 7, 2, 4, false, true, false, false⟩ ∧
      (7 : Nat) ≠ 0 + 1 :=
  ⟨rfl, rfl, by decide⟩

/-- C9 fails as stated: `init` succeeds on arguments whose pin indices are all
duplicated (and whose brightness argument `-1` is outside `[0, width - 2]`) —
the source never checks pins for duplicates and treats any non-positive
brightness as "use the default". -/
theorem init_duplicate_pins_cex :
    ledmatrix_init dup_args = .ok ⟨8, 4, 7, 2, 4, false, true, false, false⟩ ∧
      ¬dup_args.io_colors.Nodup ∧ dup_args.brightness = -1 :=
  ⟨rfl, by decide, rfl⟩

/-- C9 (amended): for widths that are positive `uint16` values, `init` fails
with `InvalidArgument` exactly when the width is odd, or a strictly positive
brightness argument is at least `width - 1`, or the color depth is 0, or the
effective color-pin count `min count 6` (the read loop stops after six pins)
is wrong for the channel mode, or more than 6 row pins are given.  Duplicate
pin indices are never checked, a non-positive brightness argument selects
the default, and zero row pins are accepted. -/
theorem init_validation_amended (a : InitArgs) (hw2 : 2 ≤ a.width) (hw : a.width < 65536)
    (hd : a.color_depth < 256) (hb : a.brightness < 65536) :
    isErr (ledmatrix_init a) = true ↔
      (a.width % 2 = 1 ∨ (0 < a.brightness ∧ (a.width : Int) - 1 ≤ a.brightness) ∨
        a.color_depth = 0 ∨ (a.single_channel = true ∧ min a.io_colors.length 6 ≠ 3) ∨
        (a.single_channel = false ∧ min a.io_colors.length 6 ≠ 6) ∨
        6 < a.io_rows.length) := by
  have h1 : a.width % 65536 = a.width := Nat.mod_eq_of_lt hw
  have h2 : a.color_depth % 256 = a.color_depth := Nat.mod_eq_of_lt hd
  have h3 : a.brightness.toNat % 65536 = a.brightness.toNat := Nat.mod_eq_of_lt (by omega)
  simp only [ledmatrix_init, h1, h2, h3]
  split_ifs with g1 g2 g3 g4 g5
  · simpa [isErr] using Or.inl g1
  · have : 0 < a.brightness ∧ (a.width : Int) - 1 ≤ a.brightness := by
      refine ⟨g2.1, ?_⟩
      have := g2.2
      omega
    simpa [isErr] using Or.inr (Or.inl this)
  · simpa [isErr] using Or.inr (Or.inr (Or.inl g3))
  · rcases g4 with g4 | g4
    · simpa [isErr] using Or.inr (Or.inr (Or.inr (Or.inl g4)))
    · simpa [isErr] using Or.inr (Or.inr (Or.inr (Or.inr (Or.inl g4))))
  · simpa [isErr] using Or.inr (Or.inr (Or.inr (Or.inr (Or.inr g5))))
  all_goals
    simp only [isErr, Bool.false_eq_true, false_iff]
    rintro (h | h | h | h | h | h)
    · exact g1 h
    · exact absurd ⟨h.1, by have := h.2; omega⟩ g2
    · exact g3 h
    · exact g4 (Or.inl h)
    · exact g4 (Or.inr h)
    · exact g5 h

/-- C8 fails as stated: `set_brightness` does not clamp an out-of-range
argument — it raises `InvalidArgument`.  Concretely, on the width-2 geometry
the argument 5 (outside `[0, width - 2] = [0, 0]`) makes the call fail
instead of storing a clamped value. -/
theorem set_brightness_out_of_range_cex :
    ledmatrix_set_brightness cfg2x1 st2x1 5 = .error .invalidArgument ∧
      ¬(0 ≤ (5 : Int) ∧ (5 : Int) ≤ (cfg2x1.width : Int) - 2) :=
  ⟨rfl, by decide⟩

/-- C8 (amended): while initialized, `set_brightness v` raises
`InvalidArgument` whenever `v` is outside `[0, width - 2]`; for `v` in range
it stores `brightness = v + 1` and re-runs the control-byte pass on buffer 0
and, when double-buffered, also on buffer 1 (with the new brightness). -/
theorem set_brightness_amended (cfg : Config) (st : MatrixState) (v : Int)
    (hinit : st.initialized = true) :
    ((0 ≤ v ∧ v < (cfg.width : Int) - 1) →
      ledmatrix_set_brightness cfg st v =
        .ok
          ({ cfg with brightness := v.toNat + 1 },
            { st with
              stream0 := create_control_pattern { cfg with brightness := v.toNat + 1 } st.stream0
              stream1 :=
                if cfg.double_buffer then
                  create_control_pattern { cfg with brightness := v.toNat + 1 } st.stream1
                else st.stream1 })) ∧
      ((v < 0 ∨ (cfg.width : Int) - 1 ≤ v) →
        ledmatrix_set_brightness cfg st v = .error .invalidArgument) := by
  unfold ledmatrix_set_brightness
  rw [hinit]
  constructor
  · intro hin
    rw [if_neg (by simp), if_neg (by omega)]
  · intro hout
    rw [if_neg (by simp), if_pos hout]

/-- Witness for the amended C8: the in-range argument 0 on the width-2
geometry stores brightness 1 and rewrites the control bytes. -/
theorem set_brightness_amended_witness :
    st2x1.initialized = true ∧ (0 ≤ (0 : Int) ∧ (0 : Int) < (cfg2x1.width : Int) - 1) ∧
      ledmatrix_set_brightness cfg2x1 st2x1 0 =
        .ok
          ({ cfg2x1 with brightness := (0 : Int).toNat + 1 },
            { st2x1 with
              stream0 :=
                create_control_pattern { cfg2x1 with brightness := (0 : Int).toNat + 1 }
                  st2x1.stream0
              stream1 :=
                if cfg2x1.double_buffer then
                  create_control_pattern { cfg2x1 with brightness := (0 : Int).toNat + 1 }
                    st2x1.stream1
                else st2x1.stream1 }) :=
  ⟨rfl, by decide, (set_brightness_amended cfg2x1 st2x1 0 rfl).1 (by decide)⟩

/-- Witness for the amended C9 at an odd width. -/
theorem init_validation_amended_witness :
    2 ≤ nine_args.width ∧ nine_args.width < 65536 ∧ nine_args.color_depth < 256 ∧
      nine_args.brightness < 65536 ∧
      (isErr (ledmatrix_init nine_args) = true ↔
        (nine_args.width % 2 = 1 ∨
          (0 < nine_args.brightness ∧ (nine_args.width : Int) - 1 ≤ nine_args.brightness) ∨
          nine_args.color_depth = 0 ∨
          (nine_args.single_channel = true ∧ min nine_args.io_colors.length 6 ≠ 3) ∨
          (nine_args.single_channel = false ∧ min nine_args.io_colors.length 6 ≠ 6) ∨
          6 < nine_args.io_rows.length)) :=
  ⟨by decide, by decide, by decide, by decide,
    init_validation_amended nine_args (by decide) (by decide) (by decide) (by decide)⟩

theorem foldl_update_of_ne {α : Type} (g v : α → Nat) (l : List α) (st : Nat → Nat) (x : Nat)
    (hx : ∀ b ∈ l, g b ≠ x) :
    (l.foldl (fun s b => Function.update s (g b) (v b)) st) x = st x := by
  induction l generalizing st with
  | nil => rfl
  | cons a t ih =>
    rw [List.foldl_cons, ih _ fun b hb => hx b (List.mem_cons_of_mem a hb)]
    exact Function.update_noteq (Ne.symm (hx a (List.mem_cons_self a t))) _ _

theorem foldl_update_of_mem {α : Type} (g v : α → Nat) (l : List α) (st : Nat → Nat) (b : α)
    (hb : b ∈ l) (huniq : ∀ c ∈ l, g c = g b → v c = v b) :
    (l.foldl (fun s c => Function.update s (g c) (v c)) st) (g b) = v b := by
  induction l generalizing st b with
  | nil => cases hb
  | cons a t ih =>
    rw [List.foldl_cons]
    by_cases hex : ∃ c ∈ t, g c = g b
    · obtain ⟨c, hc, hgc⟩ := hex
      have huniq' : ∀ e ∈ t, g e = g c → v e = v c := by
        intro e he hge
        rw [huniq e (List.mem_cons_of_mem a he) (hge.trans hgc),
          huniq c (List.mem_cons_of_mem a hc) hgc]
      rw [← hgc, ih _ c hc huniq']
      exact huniq c (List.mem_cons_of_mem a hc) hgc
    · push_neg at hex
      have hba : b = a := by
        rcases List.mem_cons.mp hb with h | h
        · exact h
        · exact absurd rfl (hex b h)
      subst hba
      rw [foldl_update_of_ne g v t _ _ fun c hc => hex c hc]
      exact Function.update_same _ _ _

theorem addr_decomp (K x y x' y' : Nat) (hy : y < K) (hy' : y' < K)
    (h : K * x + y = K * x' + y') : x = x' ∧ y = y' := by
  have hK : 0 < K := by omega
  constructor
  · have e1 : (K * x + y) / K = x := by
      rw [Nat.mul_add_div hK, Nat.div_eq_of_lt hy, Nat.add_zero]
    have e2 : (K * x' + y') / K = x' := by
      rw [Nat.mul_add_div hK, Nat.div_eq_of_lt hy', Nat.add_zero]
    rw [← e1, ← e2, h]
  · have e1 : (K * x + y) % K = y := by
      rw [Nat.mul_add_mod, Nat.mod_eq_of_lt hy]
    have e2 : (K * x' + y') % K = y' := by
      rw [Nat.mul_add_mod, Nat.mod_eq_of_lt hy']
    rw [← e1, ← e2, h]

theorem mem_encoder_triples (depth rows width lvl row pixel : Nat) (hl : lvl < depth)
    (hr : row < rows) (hp : pixel < width) :
    (lvl, row, pixel) ∈ encoder_triples depth rows width := by
  unfold encoder_triples
  refine List.mem_flatMap.mpr ⟨lvl, List.mem_range.mpr hl, ?_⟩
  refine List.mem_flatMap.mpr ⟨row, List.mem_range.mpr hr, ?_⟩
  exact List.mem_map.mpr ⟨pixel, List.mem_range.mpr hp, rfl⟩

theorem bounds_of_mem_encoder_triples (depth rows width : Nat) (t : Nat × Nat × Nat)
    (ht : t ∈ encoder_triples depth rows width) :
    t.1 < depth ∧ t.2.1 < rows ∧ t.2.2 < width := by
  unfold encoder_triples at ht
  obtain ⟨lvl, hl, ht⟩ := List.mem_flatMap.mp ht
  obtain ⟨row, hr, ht⟩ := List.mem_flatMap.mp ht
  obtain ⟨px, hp, ht⟩ := List.mem_map.mp ht
  subst ht
  exact ⟨List.mem_range.mp hl, List.mem_range.mp hr, List.mem_range.mp hp⟩

theorem ctrl_addr_shape (width rows lvl row pixel : Nat) :
    ctrl_addr width rows lvl row pixel =
      2 * width * rows * lvl + (2 * width * row + (2 * pixel + 1)) := by
  unfold ctrl_addr subimage_stride; ring

theorem ctrl_addr_eq (width rows : Nat) (t b : Nat × Nat × Nat) (htr : t.2.1 < rows)
    (htp : t.2.2 < width) (hbr : b.2.1 < rows) (hbp : b.2.2 < width)
    (h : ctrl_addr width rows t.1 t.2.1 t.2.2 = ctrl_addr width rows b.1 b.2.1 b.2.2) :
    t.2.1 = b.2.1 ∧ t.2.2 = b.2.2 := by
  rw [ctrl_addr_shape, ctrl_addr_shape] at h
  have hin : 2 * width * t.2.1 + (2 * t.2.2 + 1) < 2 * width * rows := by
    have h1 : 2 * width * (t.2.1 + 1) ≤ 2 * width * rows := Nat.mul_le_mul_left _ (by omega)
    have h2 : 2 * width * t.2.1 + 2 * width = 2 * width * (t.2.1 + 1) := by ring
    omega
  have hin' : 2 * width * b.2.1 + (2 * b.2.2 + 1) < 2 * width * rows := by
    have h1 : 2 * width * (b.2.1 + 1) ≤ 2 * width * rows := Nat.mul_le_mul_left _ (by omega)
    have h2 : 2 * width * b.2.1 + 2 * width = 2 * width * (b.2.1 + 1) := by ring
    omega
  have houter :=
    addr_decomp (2 * width * rows) t.1 (2 * width * t.2.1 + (2 * t.2.2 + 1)) b.1
      (2 * width * b.2.1 + (2 * b.2.2 + 1)) hin hin' h
  have hinner :=
    addr_decomp (2 * width) t.2.1 (2 * t.2.2 + 1) b.2.1 (2 * b.2.2 + 1) (by omega) (by omega)
      houter.2
  exact ⟨hinner.1, by omega⟩

theorem shift_two_mod (d : Nat) : (d <<< 2) % 256 = 4 * (d % 64) := by
  rw [Nat.shiftLeft_eq, show (2 : Nat) ^ 2 = 4 from rfl, show (256 : Nat) = 64 * 4 from rfl,
    Nat.mul_mod_mul_right, Nat.mul_comm]

set_option maxRecDepth 4000 in
theorem ctrl_bits_table :
    ∀ d, d < 64 →
      4 * d / 4 = d ∧ (4 * d ||| 1) / 4 = d ∧ (4 * d ||| 2) / 4 = d ∧
        ((4 * d ||| 1) ||| 2) / 4 = d ∧
        Nat.testBit (4 * d) 0 = false ∧ Nat.testBit (4 * d ||| 1) 0 = true ∧
        Nat.testBit (4 * d ||| 2) 0 = false ∧ Nat.testBit ((4 * d ||| 1) ||| 2) 0 = true ∧
        Nat.testBit (4 * d) 1 = false ∧ Nat.testBit (4 * d ||| 1) 1 = false ∧
        Nat.testBit (4 * d ||| 2) 1 = true ∧ Nat.testBit ((4 * d ||| 1) ||| 2) 1 = true ∧
        4 * d < 256 ∧ 4 * d ||| 1 < 256 ∧ 4 * d ||| 2 < 256 ∧ (4 * d ||| 1) ||| 2 < 256 := by
  decide

set_option maxRecDepth 8000 in
theorem complement_bits :
    ∀ c, c < 256 → ∀ i, i < 8 → Nat.testBit (c ^^^ 255) i = !Nat.testBit c i := by
  decide

theorem row_field_eq (a row : Nat) (ha : a ≤ 6) (hr : row < 2 ^ a) :
    (row + 255) % 256 % 64 % 2 ^ a = (row + 2 ^ a - 1) % 2 ^ a := by
  interval_cases a <;> norm_num at hr ⊢ <;> omega

theorem create_ctrl_byte_false (width brightness row pixel : Nat) :
    create_ctrl_byte width brightness false row pixel =
      if pixel = width - 2 then
        (if pixel < 2 ∨ brightness < pixel then (((row + 255) % 256) <<< 2) % 256 ||| 1
          else (((row + 255) % 256) <<< 2) % 256) ||| 2
      else
        if pixel < 2 ∨ brightness < pixel then (((row + 255) % 256) <<< 2) % 256 ||| 1
        else (((row + 255) % 256) <<< 2) % 256 := rfl

theorem ctrl_byte_lt (width brightness row pixel : Nat) :
    create_ctrl_byte width brightness false row pixel < 256 := by
  rw [create_ctrl_byte_false, shift_two_mod]
  obtain ⟨-, -, -, -, -, -, -, -, -, -, -, -, t13, t14, t15, t16⟩ :=
    ctrl_bits_table ((row + 255) % 256 % 64) (Nat.mod_lt _ (by norm_num))
  split_ifs
  · exact t16
  · exact t15
  · exact t14
  · exact t13

/-- C2: for every geometry and every triple `(lvl, row, pixel)` with
`lvl < D`, `row < rows`, `pixel < width`, the control-byte pass writes
`create_ctrl_byte` at the cell's control byte, and that byte satisfies: its
row-address field (bits 2 .. 2+a-1, the `a` bits that reach the bus) equals
`(row - 1) mod rows`; its OE bit (bit 0) is set iff `pixel < 2` or
`pixel > brightness`; its LAT bit (bit 1) is set iff `pixel = width - 2`; and
with `invert` the whole byte is complemented, each of the 8 bits flipping
exactly once. -/
theorem control_byte_correct (cfg : Config) (a : Nat) (stream : Nat → Nat)
    (lvl row pixel : Nat) (hrows : cfg.rows = 2 ^ a) (ha : a ≤ 6) (hl : lvl < cfg.color_depth)
    (hr : row < cfg.rows) (hp : pixel < cfg.width) :
    create_control_pattern cfg stream (ctrl_addr cfg.width cfg.rows lvl row pixel) =
        create_ctrl_byte cfg.width cfg.brightness cfg.invert row pixel ∧
      create_ctrl_byte cfg.width cfg.brightness false row pixel / 4 % cfg.rows =
        (row + cfg.rows - 1) % cfg.rows ∧
      (Nat.testBit (create_ctrl_byte cfg.width cfg.brightness false row pixel) 0 = true ↔
        (pixel < 2 ∨ cfg.brightness < pixel)) ∧
      (Nat.testBit (create_ctrl_byte cfg.width cfg.brightness false row pixel) 1 = true ↔
        pixel = cfg.width - 2) ∧
      ∀ i, i < 8 →
        Nat.testBit (create_ctrl_byte cfg.width cfg.brightness true row pixel) i =
          !Nat.testBit (create_ctrl_byte cfg.width cfg.brightness false row pixel) i := by
  obtain ⟨t1, t2, t3, t4, t5, t6, t7, t8, t9, t10, t11, t12, -, -, -, -⟩ :=
    ctrl_bits_table ((row + 255) % 256 % 64) (Nat.mod_lt _ (by norm_num))
  refine ⟨?_, ?_, ?_, ?_, ?_⟩
  · unfold create_control_pattern
    have hmem := mem_encoder_triples cfg.color_depth cfg.rows cfg.width lvl row pixel hl hr hp
    have :=
      foldl_update_of_mem (fun t => ctrl_addr cfg.width cfg.rows t.1 t.2.1 t.2.2)
        (fun t => create_ctrl_byte cfg.width cfg.brightness cfg.invert t.2.1 t.2.2)
        (encoder_triples cfg.color_depth cfg.rows cfg.width) stream (lvl, row, pixel) hmem ?_
    · exact this
    · intro c hc hgc
      obtain ⟨-, hcr, hcp⟩ := bounds_of_mem_encoder_triples _ _ _ c hc
      obtain ⟨h1, h2⟩ := ctrl_addr_eq cfg.width cfg.rows c (lvl, row, pixel) hcr hcp hr hp hgc
      simp only [h1, h2]
  · rw [create_ctrl_byte_false, shift_two_mod, hrows]
    have hr' : row < 2 ^ a := hrows ▸ hr
    split_ifs
    · rw [t4]; exact row_field_eq a row ha hr'
    · rw [t3]; exact row_field_eq a row ha hr'
    · rw [t2]; exact row_field_eq a row ha hr'
    · rw [t1]; exact row_field_eq a row ha hr'
  · rw [create_ctrl_byte_false, shift_two_mod]
    split_ifs with h1 h2 h2
    · rw [t8]; exact iff_of_true rfl h2
    · rw [t7]; exact iff_of_false (by simp) h2
    · rw [t6]; exact iff_of_true rfl h2
    · rw [t5]; exact iff_of_false (by simp) h2
  · rw [create_ctrl_byte_false, shift_two_mod]
    split_ifs with h1 h2 h2
    · rw [t12]; exact iff_of_true rfl h1
    · rw [t11]; exact iff_of_true rfl h1
    · rw [t10]; exact iff_of_false (by simp) h1
    · rw [t9]; exact iff_of_false (by simp) h1
  · intro i hi
    have hflip :
        create_ctrl_byte cfg.width cfg.brightness true row pixel =
          create_ctrl_byte cfg.width cfg.brightness false row pixel ^^^ 255 := rfl
    rw [hflip]
    exact complement_bits _ (ctrl_byte_lt _ _ _ _) i hi

/-- Witness for C2 on a concrete geometry (width 4, two rows, brightness 2). -/
theorem control_byte_correct_witness :
    ({ width := 4, height := 2, brightness := 2, rows := 2, color_depth := 1, invert := false,
        column_swap := false, double_buffer := false, single_chn := true } : Config).rows =
        2 ^ 1 ∧
      1 ≤ 6 ∧ 0 < 1 ∧ 0 < 2 ∧ 2 < 4 ∧
      (create_control_pattern
            { width := 4, height := 2, brightness := 2, rows := 2, color_depth := 1,
              invert := false, column_swap := false, double_buffer := false,
              single_chn := true } zeroStream (ctrl_addr 4 2 0 0 2) =
          create_ctrl_byte 4 2 false 0 2 ∧
        create_ctrl_byte 4 2 false 0 2 / 4 % 2 = (0 + 2 - 1) % 2 ∧
        (Nat.testBit (create_ctrl_byte 4 2 false 0 2) 0 = true ↔ (2 < 2 ∨ 2 < 2)) ∧
        (Nat.testBit (create_ctrl_byte 4 2 false 0 2) 1 = true ↔ 2 = 4 - 2) ∧
        ∀ i, i < 8 →
          Nat.testBit (create_ctrl_byte 4 2 true 0 2) i =
            !Nat.testBit (create_ctrl_byte 4 2 false 0 2) i) :=
  ⟨rfl, by decide, by decide, by decide, by decide,
    control_byte_correct
      { width := 4, height := 2, brightness := 2, rows := 2, color_depth := 1, invert := false,
        column_swap := false, double_buffer := false, single_chn := true }
      1 zeroStream 0 0 2 rfl (by decide) (by decide) (by decide) (by decide)⟩

theorem and_seven_eq_mod (x : Nat) : x &&& 7 = x % 8 := by
  rw [show (7 : Nat) = 2 ^ 3 - 1 from rfl, Nat.and_pow_two_sub_one_eq_mod]

theorem testBit_one_eq (i : Nat) : Nat.testBit 1 i = decide (i = 0) := by
  cases i with
  | zero => rfl
  | succ j => rw [Nat.testBit_add_one]; simp [Nat.zero_testBit]

theorem xor_one_mod_eight (x : Nat) : (x ^^^ 1) % 8 = x % 8 ^^^ 1 := by
  apply Nat.eq_of_testBit_eq
  intro i
  rw [show (8 : Nat) = 2 ^ 3 from rfl, Nat.testBit_mod_two_pow, Nat.testBit_xor,
    Nat.testBit_xor, Nat.testBit_mod_two_pow, testBit_one_eq]
  cases i with
  | zero => simp
  | succ j => simp

/-- C6 fails as stated: at column `x = 2` the C expression
`0x80 >> (1 - (x & 7))` shifts by the negative amount `-1` (undefined
behaviour, modelled as `none`), whereas the claimed pair-swapped mask
`0x80 >> ((x XOR 1) & 7) = 0x10` matches the framebuffer byte `0x10`, so the
claim demands the mono tint bits (here 7). -/
theorem mono_hlsb_decoder_cex :
    get_color_bits_mono_hlsb 8 ⟨255, 255, 255⟩ 2 0 0 (fun _ => 16) = none ∧
      mono_hlsb_claimed 8 ⟨255, 255, 255⟩ 2 0 0 (fun _ => 16) = 7 ∧
      get_color_bits_mono_hlsb 8 ⟨255, 255, 255⟩ 2 0 0 (fun _ => 16) ≠
        some (mono_hlsb_claimed 8 ⟨255, 255, 255⟩ 2 0 0 (fun _ => 16)) :=
  ⟨rfl, rfl, by decide⟩

/-- C6 (amended): for widths divisible by 8, the MONO_HLSB decoder matches
the claimed pair-swapped MSB-first layout only on the first two columns of
each byte: for `x % 8 ≤ 1` it returns the mono tint bits iff framebuffer
byte `(x >> 3) + y * (width / 8)` has bit mask `0x80 >> ((x XOR 1) & 7)` set
and 0 otherwise; for `x % 8 ≥ 2` the C shift amount `1 - (x & 7)` is negative
(undefined behaviour, modelled as `none`).  In particular a row byte holding
`0b10000000` lights column 1, not column 0. -/
theorem mono_hlsb_decoder_amended (width : Nat) (mc : MonoColor) (x y bit : Nat)
    (data : Nat → Nat) (hw : 8 ∣ width) :
    (x % 8 ≤ 1 →
      get_color_bits_mono_hlsb width mc x y bit data =
        some
          (if data (x / 8 + y * (width / 8)) &&& (0x80 >>> ((x ^^^ 1) % 8)) ≠ 0 then
            get_mono_color_bits mc bit
          else 0)) ∧
      (1 < x % 8 → get_color_bits_mono_hlsb width mc x y bit data = none) ∧
      get_color_bits_mono_hlsb width mc 1 y bit
          (fun i => if i = y * (width / 8) then 128 else 0) =
        some (get_mono_color_bits mc bit) ∧
      get_color_bits_mono_hlsb width mc 0 y bit
          (fun i => if i = y * (width / 8) then 128 else 0) = some 0 := by
  have hidx : ∀ z : Nat, (z * width) >>> 3 = z * (width / 8) := by
    intro z
    rw [Nat.shiftRight_eq_div_pow, show (2 : Nat) ^ 3 = 8 from rfl, Nat.mul_div_assoc z hw]
  refine ⟨?_, ?_, ?_, ?_⟩
  · intro hx
    unfold get_color_bits_mono_hlsb
    rw [if_pos (by rw [and_seven_eq_mod]; exact hx)]
    rw [and_seven_eq_mod, hidx, Nat.shiftRight_eq_div_pow x 3, show (2 : Nat) ^ 3 = 8 from rfl,
      xor_one_mod_eight]
    rcases Nat.le_one_iff_eq_zero_or_eq_one.mp hx with h0 | h1
    · rw [h0]; rfl
    · rw [h1]; rfl
  · intro hx
    unfold get_color_bits_mono_hlsb
    rw [if_neg (by rw [and_seven_eq_mod]; omega)]
  · unfold get_color_bits_mono_hlsb
    rw [if_pos (by decide)]
    rw [hidx]
    simp
  · unfold get_color_bits_mono_hlsb
    rw [if_pos (by decide)]
    rw [hidx]
    simp
    intro h
    exact absurd (by decide) h

/-- Witness for the amended C6 at width 8, both in-range and undefined
columns. -/
theorem mono_hlsb_decoder_amended_witness :
    (8 : Nat) ∣ 8 ∧
      ((1 : Nat) % 8 ≤ 1 →
        get_color_bits_mono_hlsb 8 ⟨255, 255, 255⟩ 1 0 0 (fun _ => 16) =
          some
            (if (fun _ : Nat => 16) (1 / 8 + 0 * (8 / 8)) &&& (0x80 >>> ((1 ^^^ 1) % 8)) ≠ 0
              then get_mono_color_bits ⟨255, 255, 255⟩ 0
            else 0)) ∧
      (1 < (1 : Nat) % 8 → get_color_bits_mono_hlsb 8 ⟨255, 255, 255⟩ 1 0 0 (fun _ => 16) = none) ∧
      get_color_bits_mono_hlsb 8 ⟨255, 255, 255⟩ 1 0 0
          (fun i => if i = 0 * (8 / 8) then 128 else 0) =
        some (get_mono_color_bits ⟨255, 255, 255⟩ 0) ∧
      get_color_bits_mono_hlsb 8 ⟨255, 255, 255⟩ 0 0 0
          (fun i => if i = 0 * (8 / 8) then 128 else 0) = some 0 :=
  ⟨by decide, (mono_hlsb_decoder_amended 8 ⟨255, 255, 255⟩ 1 0 0 (fun _ => 16) (by decide)).1,
    (mono_hlsb_decoder_amended 8 ⟨255, 255, 255⟩ 1 0 0 (fun _ => 16) (by decide)).2.1,
    (mono_hlsb_decoder_amended 8 ⟨255, 255, 255⟩ 1 0 0 (fun _ => 16) (by decide)).2.2.1,
    (mono_hlsb_decoder_amended 8 ⟨255, 255, 255⟩ 0 0 0 (fun _ => 16) (by decide)).2.2.2⟩

theorem probe_step_slot (D seg s : Nat) (hseg : 0 < seg) (hs : s < 2 ^ D - 1) :
    probe_step D seg (s * seg) = (s + 1) % (2 ^ D - 1) * seg := by
  unfold probe_step dma_desc_count
  have key : s * seg + seg = (s + 1) * seg := by ring
  rw [key]
  by_cases h : s + 1 = 2 ^ D - 1
  · rw [if_pos (le_of_eq (by rw [h])), h, Nat.mod_self, Nat.zero_mul]
  · have hlt : s + 1 < 2 ^ D - 1 := by omega
    rw [if_neg (Nat.not_le.mpr ((mul_lt_mul_right hseg).mpr hlt)), Nat.mod_eq_of_lt hlt]

theorem find_free_spec (D seg : Nat) (f : Nat → Option Nat) (hseg : 0 < seg)
    (hNS : 0 < 2 ^ D - 1) :
    ∀ fuel s, s < 2 ^ D - 1 →
      (∃ j, j < fuel ∧ f ((s + j) % (2 ^ D - 1) * seg) = none) →
      ∃ t, t < 2 ^ D - 1 ∧ find_free_entry f D seg fuel (s * seg) = t * seg ∧
        f (t * seg) = none := by
  intro fuel
  induction fuel with
  | zero =>
    intro s hs hex
    obtain ⟨j, hj, -⟩ := hex
    omega
  | succ n ih =>
    intro s hs hex
    obtain ⟨j, hj, hfree⟩ := hex
    by_cases hocc : (f (s * seg)).isSome
    · have hj0 : j ≠ 0 := by
        rintro rfl
        rw [Nat.add_zero, Nat.mod_eq_of_lt hs] at hfree
        rw [hfree] at hocc
        simp at hocc
      have hstep := probe_step_slot D seg s hseg hs
      rw [find_free_entry, if_pos hocc, hstep]
      apply ih ((s + 1) % (2 ^ D - 1)) (Nat.mod_lt _ hNS)
      refine ⟨j - 1, by omega, ?_⟩
      rw [Nat.mod_add_mod, show s + 1 + (j - 1) = s + j from by omega]
      exact hfree
    · refine ⟨s, hs, ?_, Option.not_isSome_iff_eq_none.mp hocc⟩
      rw [find_free_entry, if_neg hocc]

theorem exists_free_slot (D seg : Nat) (f : Nat → Option Nat) (hNS : 0 < 2 ^ D - 1)
    (hocc : (occ seg (2 ^ D - 1) f).card < 2 ^ D - 1) (s : Nat) (hs : s < 2 ^ D - 1) :
    ∃ j, j < 2 ^ D - 1 ∧ f ((s + j) % (2 ^ D - 1) * seg) = none := by
  have hex : ∃ t, t < 2 ^ D - 1 ∧ f (t * seg) = none := by
    by_contra hall
    push_neg at hall
    have hfull : occ seg (2 ^ D - 1) f = Finset.range (2 ^ D - 1) := by
      apply Finset.filter_eq_self.mpr
      intro t ht
      exact Option.ne_none_iff_isSome.mp (hall t (Finset.mem_range.mp ht))
    rw [hfull, Finset.card_range] at hocc
    exact absurd hocc (lt_irrefl _)
  obtain ⟨t, ht, htf⟩ := hex
  refine ⟨(t + (2 ^ D - 1) - s) % (2 ^ D - 1), Nat.mod_lt _ hNS, ?_⟩
  have harith : (s + (t + (2 ^ D - 1) - s) % (2 ^ D - 1)) % (2 ^ D - 1) = t := by
    rw [Nat.add_mod, Nat.mod_mod_of_dvd _ (dvd_refl _), ← Nat.add_mod,
      show s + (t + (2 ^ D - 1) - s) = t + (2 ^ D - 1) from by omega, Nat.add_mod_right,
      Nat.mod_eq_of_lt ht]
  rw [harith]
  exact htf

theorem occ_update (seg NS t lvl : Nat) (f : Nat → Option Nat) (hseg : 0 < seg) (ht : t < NS) :
    occ seg NS (Function.update f (t * seg) (some lvl)) = insert t (occ seg NS f) := by
  ext s
  simp only [occ, Finset.mem_filter, Finset.mem_insert, Finset.mem_range]
  by_cases hst : s = t
  · subst hst
    rw [Function.update_same]
    simp [ht]
  · rw [Function.update_noteq fun hEq => hst (Nat.eq_of_mul_eq_mul_right hseg hEq)]
    constructor
    · rintro ⟨h1, h2⟩; exact Or.inr ⟨h1, h2⟩
    · rintro (h | ⟨h1, h2⟩)
      · exact absurd h hst
      · exact ⟨h1, h2⟩

theorem cnt_update_self (seg NS t lvl : Nat) (f : Nat → Option Nat) (hseg : 0 < seg)
    (ht : t < NS) :
    cnt seg NS (Function.update f (t * seg) (some lvl)) lvl = insert t (cnt seg NS f lvl) := by
  ext s
  simp only [cnt, Finset.mem_filter, Finset.mem_insert, Finset.mem_range]
  by_cases hst : s = t
  · subst hst
    rw [Function.update_same]
    simp [ht]
  · rw [Function.update_noteq fun hEq => hst (Nat.eq_of_mul_eq_mul_right hseg hEq)]
    constructor
    · rintro ⟨h1, h2⟩; exact Or.inr ⟨h1, h2⟩
    · rintro (h | ⟨h1, h2⟩)
      · exact absurd h hst
      · exact ⟨h1, h2⟩

theorem cnt_update_ne (seg NS t lvl l : Nat) (f : Nat → Option Nat) (hseg : 0 < seg)
    (htf : f (t * seg) = none) (hne : l ≠ lvl) :
    cnt seg NS (Function.update f (t * seg) (some lvl)) l = cnt seg NS f l := by
  ext s
  simp only [cnt, Finset.mem_filter, Finset.mem_range]
  by_cases hst : s = t
  · subst hst
    rw [Function.update_same, htf]
    constructor
    · rintro ⟨h1, h2⟩
      injection h2 with h2
      exact absurd h2.symm hne
    · rintro ⟨h1, h2⟩
      cases h2
  · rw [Function.update_noteq fun hEq => hst (Nat.eq_of_mul_eq_mul_right hseg hEq)]

theorem place_entry_spec (D seg : Nat) (f : Nat → Option Nat) (lvl s0 : Nat) (hseg : 0 < seg)
    (hNS : 0 < 2 ^ D - 1) (hs0 : s0 < 2 ^ D - 1)
    (hocc : (occ seg (2 ^ D - 1) f).card < 2 ^ D - 1) :
    ∃ t, t < 2 ^ D - 1 ∧ f (t * seg) = none ∧
      place_entry D seg f lvl (s0 * seg) = Function.update f (t * seg) (some lvl) := by
  obtain ⟨j, hj, hfree⟩ := exists_free_slot D seg f hNS hocc s0 hs0
  obtain ⟨t, ht, heq, htf⟩ := find_free_spec D seg f hseg hNS (2 ^ D - 1) s0 hs0 ⟨j, hj, hfree⟩
  exact ⟨t, ht, htf, by unfold place_entry; rw [heq]⟩

theorem init_pos_lt (D seg n k : Nat) (hseg : 0 < seg) (hNS : 0 < 2 ^ D - 1) (hk : k < n) :
    ∃ s0, s0 < 2 ^ D - 1 ∧ init_pos D seg n k = s0 * seg := by
  have hn : 0 < n := by omega
  have hNpos : 0 < dma_desc_count D seg := Nat.mul_pos hNS hseg
  have hposd :
      dma_desc_count D seg * k / n + dma_desc_count D seg / n / 2 < dma_desc_count D seg := by
    set N := dma_desc_count D seg with hN
    by_contra hge
    push_neg at hge
    have hA : N * k / n * n ≤ N * k := Nat.div_mul_le_self _ _
    have hAk : N * k ≤ N * (n - 1) := Nat.mul_le_mul_left _ (by omega)
    have hB2 : N / n / 2 * (n * 2) ≤ N := by
      rw [Nat.div_div_eq_div_mul]
      exact Nat.div_mul_le_self _ _
    have h1 : N * n ≤ (N * k / n + N / n / 2) * n := Nat.mul_le_mul_right _ hge
    have h2 : (N * k / n + N / n / 2) * n = N * k / n * n + N / n / 2 * n := by ring
    have h4 : N * n = N * (n - 1) + N := by
      have hn1 : n = n - 1 + 1 := by omega
      calc N * n = N * (n - 1 + 1) := by rw [← hn1]
        _ = N * (n - 1) + N := by ring
    have h5 : N * (n - 1) + N ≤ N * k / n * n + N / n / 2 * n := by
      rw [← h4, ← h2]; exact h1
    have h6 : N * k / n * n ≤ N * (n - 1) := le_trans hA hAk
    have h7 : N ≤ N / n / 2 * n := by
      have h5a : N * (n - 1) + N ≤ N * (n - 1) + N / n / 2 * n :=
        le_trans h5 (Nat.add_le_add_right h6 _)
      exact Nat.le_of_add_le_add_left h5a
    have h9 : N + N ≤ N := by
      calc N + N ≤ N / n / 2 * n + N / n / 2 * n := Nat.add_le_add h7 h7
        _ = N / n / 2 * (n * 2) := by ring
        _ ≤ N := hB2
    omega
  refine ⟨(dma_desc_count D seg * k / n + dma_desc_count D seg / n / 2) / seg, ?_, rfl⟩
  rw [Nat.div_lt_iff_lt_mul hseg]
  calc dma_desc_count D seg * k / n + dma_desc_count D seg / n / 2 < dma_desc_count D seg :=
      hposd
    _ = (2 ^ D - 1) * seg := rfl

theorem place_level_spec (D seg lvl : Nat) (f : Nat → Option Nat) (hseg : 0 < seg)
    (hNS : 0 < 2 ^ D - 1) (hval : ∀ p l, f p = some l → l < lvl) :
    ∀ k, k ≤ 2 ^ lvl → (occ seg (2 ^ D - 1) f).card + 2 ^ lvl ≤ 2 ^ D - 1 →
      (∀ p l, place_level D seg lvl f k p = some l → l < lvl + 1) ∧
        (occ seg (2 ^ D - 1) (place_level D seg lvl f k)).card =
          (occ seg (2 ^ D - 1) f).card + k ∧
        (cnt seg (2 ^ D - 1) (place_level D seg lvl f k) lvl).card = k ∧
        ∀ l, l ≠ lvl →
          cnt seg (2 ^ D - 1) (place_level D seg lvl f k) l = cnt seg (2 ^ D - 1) f l := by
  intro k
  induction k with
  | zero =>
    intro _ _
    refine ⟨fun p l h => Nat.lt_succ_of_lt (hval p l h), rfl, ?_, fun l _ => rfl⟩
    apply Finset.card_eq_zero.mpr
    apply Finset.filter_eq_empty_iff.mpr
    intro s _ h
    exact absurd (hval _ _ h) (lt_irrefl lvl)
  | succ n ihn =>
    intro hk hocc
    obtain ⟨ihval, ihocc, ihcnt, ihcnt'⟩ := ihn (by omega) hocc
    obtain ⟨s0, hs0, hpos⟩ := init_pos_lt D seg (2 ^ lvl) n hseg hNS (by omega)
    have hoccn : (occ seg (2 ^ D - 1) (place_level D seg lvl f n)).card < 2 ^ D - 1 := by
      rw [ihocc]; omega
    obtain ⟨t, ht, htf, hupd⟩ :=
      place_entry_spec D seg (place_level D seg lvl f n) lvl s0 hseg hNS hs0 hoccn
    have hstep : place_level D seg lvl f (n + 1) =
        Function.update (place_level D seg lvl f n) (t * seg) (some lvl) := by
      show place_entry D seg (place_level D seg lvl f n) lvl (init_pos D seg (2 ^ lvl) n) = _
      rw [hpos, hupd]
    refine ⟨?_, ?_, ?_, ?_⟩
    · intro p l h
      rw [hstep, Function.update_apply] at h
      split at h
      · injection h with h; omega
      · exact ihval p l h
    · rw [hstep, occ_update seg (2 ^ D - 1) t lvl _ hseg ht,
        Finset.card_insert_of_not_mem fun hmem => by
          simp only [occ, Finset.mem_filter, htf] at hmem
          simp at hmem,
        ihocc]
      omega
    · rw [hstep, cnt_update_self seg (2 ^ D - 1) t lvl _ hseg ht,
        Finset.card_insert_of_not_mem fun hmem => by
          simp only [cnt, Finset.mem_filter, htf] at hmem
          simp at hmem,
        ihcnt]
    · intro l hl
      rw [hstep, cnt_update_ne seg (2 ^ D - 1) t lvl l _ hseg htf hl, ihcnt' l hl]

theorem place_levels_spec (D seg : Nat) (hseg : 0 < seg) (hD : 0 < D) :
    ∀ i, i ≤ D - 1 →
      (∀ p l, place_levels D seg i p = some l → l < i) ∧
        (occ seg (2 ^ D - 1) (place_levels D seg i)).card = 2 ^ i - 1 ∧
        ∀ l, l < i → (cnt seg (2 ^ D - 1) (place_levels D seg i) l).card = 2 ^ l := by
  have hNS : 0 < 2 ^ D - 1 := by
    have h1 : 2 ^ 1 ≤ 2 ^ D := Nat.pow_le_pow_right (by norm_num) hD
    omega
  intro i
  induction i with
  | zero =>
    intro _
    refine ⟨fun p l h => by simp [place_levels] at h, ?_, fun l hl => by omega⟩
    apply Finset.card_eq_zero.mpr
    apply Finset.filter_eq_empty_iff.mpr
    intro s _ h
    simp [place_levels] at h
  | succ i ihi =>
    intro hi
    obtain ⟨ihval, ihocc, ihcnt⟩ := ihi (by omega)
    have hocc2 : (occ seg (2 ^ D - 1) (place_levels D seg i)).card + 2 ^ i ≤ 2 ^ D - 1 := by
      rw [ihocc]
      have h1 : 2 ^ (i + 1) ≤ 2 ^ D := Nat.pow_le_pow_right (by norm_num) (by omega)
      have h2 : 2 ^ (i + 1) = 2 ^ i * 2 := pow_succ 2 i
      have h3 : 0 < 2 ^ i := pow_pos (by norm_num) i
      omega
    obtain ⟨hval2, hocc3, hcnt3, hcnt4⟩ :=
      place_level_spec D seg i (place_levels D seg i) hseg hNS ihval (2 ^ i) le_rfl hocc2
    have hdef : place_levels D seg (i + 1) = place_level D seg i (place_levels D seg i) (2 ^ i) :=
      rfl
    refine ⟨?_, ?_, ?_⟩
    · intro p l h
      rw [hdef] at h
      exact hval2 p l h
    · rw [hdef, hocc3, ihocc]
      have h2 : 2 ^ (i + 1) = 2 ^ i * 2 := pow_succ 2 i
      have h3 : 0 < 2 ^ i := pow_pos (by norm_num) i
      omega
    · intro l hl
      rw [hdef]
      rcases Nat.lt_succ_iff_lt_or_eq.mp hl with h | h
      · rw [hcnt4 l (by omega), ihcnt l h]
      · subst h
        exact hcnt3

theorem slot_subimage_counts (D seg : Nat) (hseg : 0 < seg) (hD : 0 < D) :
    (∀ l, l < D - 1 →
        ((Finset.range (2 ^ D - 1)).filter fun s => slot_subimage D seg s = l).card = 2 ^ l) ∧
      ((Finset.range (2 ^ D - 1)).filter fun s => slot_subimage D seg s = D - 1).card =
        2 ^ (D - 1) ∧
      ∀ s, slot_subimage D seg s < D := by
  obtain ⟨hval, hocc, hcnt⟩ := place_levels_spec D seg hseg hD (D - 1) le_rfl
  have hNS : 0 < 2 ^ D - 1 := by
    have h1 : 2 ^ 1 ≤ 2 ^ D := Nat.pow_le_pow_right (by norm_num) hD
    omega
  refine ⟨?_, ?_, ?_⟩
  · intro l hl
    have hfe : ((Finset.range (2 ^ D - 1)).filter fun s => slot_subimage D seg s = l) =
        cnt seg (2 ^ D - 1) (place_levels D seg (D - 1)) l := by
      apply Finset.filter_congr
      intro s _
      unfold slot_subimage
      cases hfs : place_levels D seg (D - 1) (s * seg) with
      | none =>
        simp only [Option.getD_none]
        constructor
        · intro h; omega
        · intro h; cases h
      | some v =>
        simp only [Option.getD_some]
        constructor
        · intro h; rw [h]
        · intro h; injection h
    rw [hfe]
    exact hcnt l hl
  · have hfe : ((Finset.range (2 ^ D - 1)).filter fun s => slot_subimage D seg s = D - 1) =
        (Finset.range (2 ^ D - 1)).filter fun s =>
          ¬(place_levels D seg (D - 1) (s * seg)).isSome = true := by
      apply Finset.filter_congr
      intro s _
      unfold slot_subimage
      cases hfs : place_levels D seg (D - 1) (s * seg) with
      | none => simp
      | some v =>
        have hv := hval (s * seg) v hfs
        simp only [Option.getD_some, Option.isSome_some]
        constructor
        · intro h; omega
        · intro h; simp at h
    rw [hfe]
    have hsplit :=
      Finset.filter_card_add_filter_neg_card_eq_card
        (s := Finset.range (2 ^ D - 1))
        (p := fun s => (place_levels D seg (D - 1) (s * seg)).isSome = true)
    rw [Finset.card_range] at hsplit
    have hoccfold :
        ((Finset.range (2 ^ D - 1)).filter fun s =>
            (place_levels D seg (D - 1) (s * seg)).isSome = true) =
          occ seg (2 ^ D - 1) (place_levels D seg (D - 1)) := rfl
    rw [hoccfold, hocc] at hsplit
    have h3 : 0 < 2 ^ (D - 1) := pow_pos (by norm_num) _
    have h4 : 2 ^ D = 2 ^ (D - 1) * 2 := by
      rw [← pow_succ]
      congr 1
      omega
    omega
  · intro s
    unfold slot_subimage
    cases hfs : place_levels D seg (D - 1) (s * seg) with
    | none => simp only [Option.getD_none]; omega
    | some v =>
      simp only [Option.getD_some]
      have := hval _ _ hfs
      omega

theorem sum_two_pow (m : Nat) : ∑ l ∈ Finset.range m, 2 ^ l = 2 ^ m - 1 := by
  induction m with
  | zero => rfl
  | succ n ih =>
    rw [Finset.sum_range_succ, ih]
    have h2 : 2 ^ (n + 1) = 2 ^ n * 2 := pow_succ 2 n
    have h3 : 0 < 2 ^ n := pow_pos (by norm_num) n
    omega

/-- C1: for every geometry with `1 ≤ D ≤ 8`, after `initialize_buffer`
completes, subimage `l` occupies exactly `2^l` of the `seg`-long descriptor
slots for every `l < D - 1`, subimage `D - 1` occupies exactly `2^(D-1)`
slots, and the slot counts over all `D` subimages sum to `2^D - 1` (the
total number of subimage appearances in the ring). -/
theorem ring_interleave_counts (width rows D : Nat) (hD1 : 1 ≤ D) (hD8 : D ≤ 8)
    (hw : 0 < width) (hr : 0 < rows) :
    (∀ l, l < D - 1 →
        ((Finset.range (2 ^ D - 1)).filter fun s =>
            slot_subimage D (dma_entries_per_subimage width rows) s = l).card = 2 ^ l) ∧
      ((Finset.range (2 ^ D - 1)).filter fun s =>
          slot_subimage D (dma_entries_per_subimage width rows) s = D - 1).card =
        2 ^ (D - 1) ∧
      ∑ l ∈ Finset.range D,
          ((Finset.range (2 ^ D - 1)).filter fun s =>
              slot_subimage D (dma_entries_per_subimage width rows) s = l).card =
        2 ^ D - 1 := by
  have hseg : 0 < dma_entries_per_subimage width rows := Nat.succ_pos _
  obtain ⟨hc1, hc2, hc3⟩ :=
    slot_subimage_counts D (dma_entries_per_subimage width rows) hseg (by omega)
  have hc2' := hc2
  refine ⟨hc1, hc2', ?_⟩
  obtain ⟨E, rfl⟩ : ∃ E, D = E + 1 := ⟨D - 1, by omega⟩
  rw [Finset.sum_range_succ]
  have hE : E + 1 - 1 = E := rfl
  have hrest :
      ∑ l ∈ Finset.range E,
          ((Finset.range (2 ^ (E + 1) - 1)).filter fun s =>
              slot_subimage (E + 1) (dma_entries_per_subimage width rows) s = l).card =
        ∑ l ∈ Finset.range E, 2 ^ l :=
    Finset.sum_congr rfl fun l hl => hc1 l (by rw [hE]; exact Finset.mem_range.mp hl)
  rw [hrest, sum_two_pow]
  rw [hE] at hc2'
  rw [hc2']
  have h2 : 2 ^ (E + 1) = 2 ^ E * 2 := pow_succ 2 E
  have h3 : 0 < 2 ^ E := pow_pos (by norm_num) E
  omega

/-- Witness for C1 at width 4, 2 rows, depth 3 (seg = 1, 7 slots). -/
theorem ring_interleave_counts_witness :
    ((Finset.range (2 ^ 3 - 1)).filter fun s =>
        slot_subimage 3 (dma_entries_per_subimage 4 2) s = 0).card = 2 ^ 0 ∧
      ((Finset.range (2 ^ 3 - 1)).filter fun s =>
          slot_subimage 3 (dma_entries_per_subimage 4 2) s = 1).card = 2 ^ 1 ∧
      ((Finset.range (2 ^ 3 - 1)).filter fun s =>
          slot_subimage 3 (dma_entries_per_subimage 4 2) s = 3 - 1).card = 2 ^ (3 - 1) ∧
      ∑ l ∈ Finset.range 3,
          ((Finset.range (2 ^ 3 - 1)).filter fun s =>
              slot_subimage 3 (dma_entries_per_subimage 4 2) s = l).card = 2 ^ 3 - 1 :=
  ⟨(ring_interleave_counts 4 2 3 (by decide) (by decide) (by decide) (by decide)).1 0
      (by decide),
    (ring_interleave_counts 4 2 3 (by decide) (by decide) (by decide) (by decide)).1 1
      (by decide),
    (ring_interleave_counts 4 2 3 (by decide) (by decide) (by decide) (by decide)).2.1,
    (ring_interleave_counts 4 2 3 (by decide) (by decide) (by decide) (by decide)).2.2⟩

theorem fill_slot_length (r : Nat) :
    ∀ base, 0 < r → (fill_slot base r).length = (r - 1) / DMA_MAX_XFER_SIZE + 1 := by
  induction r using Nat.strong_induction_on with
  | _ r ih =>
    intro base hr
    obtain ⟨p, rfl⟩ : ∃ p, r = p + 1 := ⟨r - 1, by omega⟩
    rw [fill_slot, List.length_cons]
    by_cases hsmall : p + 1 ≤ DMA_MAX_XFER_SIZE
    · rw [Nat.min_eq_left hsmall, Nat.sub_self,
        show ∀ b, fill_slot b 0 = [] from fun b => by rw [fill_slot]]
      simp only [List.length_nil, DMA_MAX_XFER_SIZE] at *
      omega
    · push_neg at hsmall
      rw [Nat.min_eq_right (by omega),
        ih (p + 1 - DMA_MAX_XFER_SIZE) (by simp only [DMA_MAX_XFER_SIZE]; omega) _
          (by simp only [DMA_MAX_XFER_SIZE] at *; omega)]
      simp only [DMA_MAX_XFER_SIZE] at *
      omega

theorem fill_slot_sum (r : Nat) :
    ∀ base, ((fill_slot base r).map LLDesc.length).sum = r := by
  induction r using Nat.strong_induction_on with
  | _ r ih =>
    intro base
    match r with
    | 0 => rw [show fill_slot base 0 = [] from by rw [fill_slot]]; rfl
    | p + 1 =>
      rw [fill_slot, List.map_cons, List.sum_cons,
        ih (p + 1 - min (p + 1) DMA_MAX_XFER_SIZE)
          (by simp only [DMA_MAX_XFER_SIZE]; omega) _]
      simp only [DMA_MAX_XFER_SIZE] at *
      omega

theorem fill_slot_mem (r : Nat) :
    ∀ base d, d ∈ fill_slot base r →
      0 < d.length ∧ base ≤ d.bufOff ∧ d.bufOff + d.length ≤ base + r := by
  induction r using Nat.strong_induction_on with
  | _ r ih =>
    intro base d hd
    match r, hd with
    | 0, hd => simp [fill_slot] at hd
    | p + 1, hd =>
      rw [fill_slot, List.mem_cons] at hd
      rcases hd with rfl | hd
      · refine ⟨?_, le_refl _, ?_⟩ <;> simp only [DMA_MAX_XFER_SIZE] at * <;> omega
      · obtain ⟨h1, h2, h3⟩ :=
          ih (p + 1 - min (p + 1) DMA_MAX_XFER_SIZE)
            (by simp only [DMA_MAX_XFER_SIZE]; omega) _ d hd
        refine ⟨h1, ?_, ?_⟩ <;> simp only [DMA_MAX_XFER_SIZE] at * <;> omega

theorem sum_map_const (n c : Nat) : ((List.range n).map fun _ => c).sum = n * c := by
  induction n with
  | zero => simp
  | succ m ih =>
    rw [List.range_succ, List.map_append, List.sum_append, ih]
    simp
    ring

theorem sum_map_length_flatMap {α : Type} (l : List α) (g : α → List LLDesc) :
    ((l.flatMap g).map LLDesc.length).sum = (l.map fun a => ((g a).map LLDesc.length).sum).sum := by
  induction l with
  | nil => rfl
  | cons a t ih => simp only [List.flatMap_cons, List.map_append, List.sum_append, ih,
      List.map_cons, List.sum_cons]

/-- C3: for every geometry with `D ≥ 1`, `initialize_buffer` produces exactly
`N = (2^D - 1) * seg` descriptors with `seg = ceil(2*W*rows / 4092)`; every
descriptor has a positive length and points into the stream buffer
(`bufOff + length ≤ D * subimage_stride`, the allocated `buffersize`, so no
`buf` is left NULL); descriptor `i` links to descriptor `i + 1` for
`i < N - 1` and descriptor `N - 1` links back to descriptor 0 (every link a
valid ring index); and the lengths over one ring cycle sum to
`(2^D - 1) * 2 * W * rows`. -/
theorem ring_structure_correct (width rows D : Nat) (hD : 1 ≤ D) (hw : 0 < width)
    (hr : 0 < rows) :
    (initialize_buffer_descs D (dma_entries_per_subimage width rows) width rows).length =
        dma_desc_count D (dma_entries_per_subimage width rows) ∧
      (∀ d ∈ initialize_buffer_descs D (dma_entries_per_subimage width rows) width rows,
        0 < d.length ∧ d.bufOff + d.length ≤ subimage_stride width rows * D) ∧
      (∀ i, i < dma_desc_count D (dma_entries_per_subimage width rows) →
        desc_next (dma_desc_count D (dma_entries_per_subimage width rows)) i =
            (if i = dma_desc_count D (dma_entries_per_subimage width rows) - 1 then 0
              else i + 1) ∧
          desc_next (dma_desc_count D (dma_entries_per_subimage width rows)) i <
            dma_desc_count D (dma_entries_per_subimage width rows)) ∧
      ((initialize_buffer_descs D (dma_entries_per_subimage width rows) width rows).map
          LLDesc.length).sum = (2 ^ D - 1) * subimage_stride width rows := by
  have hseg : 0 < dma_entries_per_subimage width rows := Nat.succ_pos _
  have hstride : 0 < subimage_stride width rows := by
    unfold subimage_stride
    positivity
  have hsub := (slot_subimage_counts D (dma_entries_per_subimage width rows) hseg (by omega)).2.2
  refine ⟨?_, ?_, ?_, ?_⟩
  · unfold initialize_buffer_descs
    rw [List.length_flatMap]
    have hmap :
        (List.range (2 ^ D - 1)).map
            (List.length ∘ fun s =>
              fill_slot
                (subimage_stride width rows *
                  slot_subimage D (dma_entries_per_subimage width rows) s)
                (subimage_stride width rows)) =
          (List.range (2 ^ D - 1)).map fun _ => dma_entries_per_subimage width rows := by
      apply List.map_congr_left
      intro s _
      show (fill_slot _ (subimage_stride width rows)).length = _
      rw [fill_slot_length (subimage_stride width rows) _ hstride]
      rfl
    rw [hmap, sum_map_const]
    rfl
  · intro d hd
    unfold initialize_buffer_descs at hd
    obtain ⟨s, hs, hd⟩ := List.mem_flatMap.mp hd
    obtain ⟨h1, h2, h3⟩ := fill_slot_mem (subimage_stride width rows) _ d hd
    refine ⟨h1, ?_⟩
    have hbound :
        subimage_stride width rows *
              slot_subimage D (dma_entries_per_subimage width rows) s +
            subimage_stride width rows ≤
          subimage_stride width rows * D := by
      have hlt := hsub s
      calc subimage_stride width rows *
            slot_subimage D (dma_entries_per_subimage width rows) s +
          subimage_stride width rows =
          subimage_stride width rows *
            (slot_subimage D (dma_entries_per_subimage width rows) s + 1) := by ring
        _ ≤ subimage_stride width rows * D := Nat.mul_le_mul_left _ (by omega)
    omega
  · intro i hi
    refine ⟨rfl, ?_⟩
    unfold desc_next
    split <;> omega
  · unfold initialize_buffer_descs
    rw [sum_map_length_flatMap]
    have hmap :
        (List.range (2 ^ D - 1)).map
            (fun s =>
              ((fill_slot
                    (subimage_stride width rows *
                      slot_subimage D (dma_entries_per_subimage width rows) s)
                    (subimage_stride width rows)).map
                  LLDesc.length).sum) =
          (List.range (2 ^ D - 1)).map fun _ => subimage_stride width rows := by
      apply List.map_congr_left
      intro s _
      exact fill_slot_sum (subimage_stride width rows) _
    rw [hmap, sum_map_const]

/-- Witness for C3 at width 4, 2 rows, depth 3: 7 descriptors of 16 bytes. -/
theorem ring_structure_correct_witness :
    (initialize_buffer_descs 3 (dma_entries_per_subimage 4 2) 4 2).length =
        dma_desc_count 3 (dma_entries_per_subimage 4 2) ∧
      (∀ d ∈ initialize_buffer_descs 3 (dma_entries_per_subimage 4 2) 4 2,
        0 < d.length ∧ d.bufOff + d.length ≤ subimage_stride 4 2 * 3) ∧
      desc_next (dma_desc_count 3 (dma_entries_per_subimage 4 2)) 6 = 0 ∧
      ((initialize_buffer_descs 3 (dma_entries_per_subimage 4 2) 4 2).map LLDesc.length).sum =
        (2 ^ 3 - 1) * subimage_stride 4 2 :=
  ⟨(ring_structure_correct 4 2 3 (by decide) (by decide) (by decide)).1,
    (ring_structure_correct 4 2 3 (by decide) (by decide) (by decide)).2.1,
    by
      have h :=
        ((ring_structure_correct 4 2 3 (by decide) (by decide) (by decide)).2.2.1 6
          (by decide)).1
      rw [h]
      decide,
    (ring_structure_correct 4 2 3 (by decide) (by decide) (by decide)).2.2.2⟩

end Ledmatrix
